import Mathlib

/-!
# Verification of the mcp-serve tool-discovery core

A shallow embedding, in Lean 4, of the discovery scanner and metadata model
implemented in `src/tool_discovery.rs` of the `mcp-serve` repository, together
with theorems settling the specification claims about that code.

Conventions of the embedding:

* Rust `PathBuf` values handled by the scanner are always paths of immediate
  children of the scanned directory, so a path is represented by its final
  component (the file name), a `String`.  Rust `Path::extension`,
  `Path::file_stem` and `Path::with_extension` act only on that final
  component, and are embedded faithfully below.
* The filesystem is a passive oracle `Fs`: each Rust filesystem call made by
  the scanner (`fs::read_dir`, `Path::is_dir`, `faccess`'s `executable()`,
  `Path::exists`, `fs::metadata(..).is_ok()`) becomes one field of `Fs`.
* The scanner's single piece of mutable state (`errors: Vec<ScanError>`)
  becomes explicit state passing: each `&mut self` method takes and returns a
  `DirectoryScanner` value.
* Fallible Rust functions returning `Result` become `Except`.
-/

set_option autoImplicit false

namespace McpServe

/-- A path's final component (file name); see the conventions above. -/
abbrev FileName := String

/-- An opaque IO error value (`std::io::Error`), identified by its message. -/
structure IoErr where
  msg : String
deriving DecidableEq, Repr

/-- Split a character list at its LAST dot: `splitAtLastDot cs = some (st, ex)`
when `cs = st ++ '.' :: ex` and `ex` contains no dot; `none` when `cs` has no
dot at all. -/
def splitAtLastDot : List Char → Option (List Char × List Char)
  | [] => none
  | c :: rest =>
    match splitAtLastDot rest with
    | some (st, ex) => some (c :: st, ex)
    | none => if c = '.' then some ([], rest) else none

/-- Rust `Path::extension` on a final component: the portion after the last
dot, unless there is no dot or the name starts with its only dot (so that
`".bashrc"` has no extension). -/
def extension (p : FileName) : Option String :=
  match splitAtLastDot p.data with
  | some (st, ex) => if st = [] then none else some ⟨ex⟩
  | none => none

/-- Rust `Path::file_stem` on a final component: the portion before the last
dot, or the whole name when there is no extension. -/
def fileStem (p : FileName) : FileName :=
  match splitAtLastDot p.data with
  | some (st, _) => if st = [] then p else ⟨st⟩
  | none => p

/-- Rust `Path::with_extension` on a final component: the stem followed by
`"."` and the new extension (just the stem when the new extension is empty). -/
def withExtension (p : FileName) (e : String) : FileName :=
  if e = "" then fileStem p else fileStem p ++ "." ++ e

/-- Rust `str::to_lowercase`, restricted to ASCII (the only characters the
fixed extension allow-list can match). -/
def lowerStr (s : String) : String :=
  ⟨s.data.map Char.toLower⟩

/-- One item yielded while iterating `fs::read_dir`: either a successfully
read entry (its file name) or the IO error of an unreadable entry. -/
abbrev DirItem := Except IoErr FileName

/-- The filesystem as seen by one call of the scanner on one directory: each
field is the oracle answering one kind of Rust filesystem call.
`readDir` is the outcome of `fs::read_dir` on the scanned directory;
`isDir` answers `Path::is_dir`; `executable` answers `faccess`'s
`Path::executable`; `pathExists` answers `Path::exists`; `metadataOk` answers
whether `fs::metadata` succeeds on a path. -/
structure Fs where
  readDir : Except IoErr (List DirItem)
  isDir : FileName → Bool
  executable : FileName → Bool
  pathExists : FileName → Bool
  metadataOk : FileName → Bool

/-- `enum MetadataSource` from the source: where a discovered tool's metadata
lives. -/
inductive MetadataSource where
  | Embedded (path : FileName)
  | Sidecar (path : FileName)
deriving DecidableEq, Repr

/-- `struct DiscoveredTool` from the source. -/
structure DiscoveredTool where
  executable_path : FileName
  metadata_source : MetadataSource
deriving DecidableEq, Repr

/-- `enum ScanError` from the source. -/
inductive ScanError where
  | ioError (e : IoErr)
  | permissionDenied (path : FileName)
deriving DecidableEq, Repr

/-- `struct DirectoryScanner`: its one field is the accumulated error log. -/
structure DirectoryScanner where
  errors : List ScanError
deriving DecidableEq, Repr

namespace DirectoryScanner

/-- `DirectoryScanner::new`. -/
def new : DirectoryScanner := ⟨[]⟩

/-- `DirectoryScanner::check_executable_by_extension`: accept when the
lowercased extension is in the fixed allow-list; extensionless files fall
back to the `faccess` executable bit. -/
def check_executable_by_extension (fs : Fs) (path : FileName) : Bool :=
  match extension path with
  | some ext => ["exe", "bat", "cmd", "ps1", "sh"].contains (lowerStr ext)
  | none => fs.executable path

/-- `DirectoryScanner::find_metadata_source`: prefer an existing, statable
sidecar `.yaml`; an existing but unstatable sidecar logs `PermissionDenied`
and falls back to embedded; a missing sidecar falls back to embedded
silently. -/
def find_metadata_source (fs : Fs) (s : DirectoryScanner)
    (executable_path : FileName) : MetadataSource × DirectoryScanner :=
  let sidecar_path := withExtension executable_path "yaml"
  if fs.pathExists sidecar_path then
    if fs.metadataOk sidecar_path then
      (MetadataSource.Sidecar sidecar_path, s)
    else
      (MetadataSource.Embedded executable_path,
       ⟨s.errors ++ [ScanError.permissionDenied sidecar_path]⟩)
  else
    (MetadataSource.Embedded executable_path, s)

/-- `DirectoryScanner::check_executable`: the `faccess` bit first, then the
extension fallback; a non-runnable file yields `none` with the scanner
untouched. -/
def check_executable (fs : Fs) (s : DirectoryScanner) (path : FileName) :
    Option DiscoveredTool × DirectoryScanner :=
  let is_executable :=
    if fs.executable path then true else check_executable_by_extension fs path
  if !is_executable then (none, s)
  else
    let r := find_metadata_source fs s path
    (some ⟨path, r.1⟩, r.2)

/-- The `for entry in entries` loop body of `DirectoryScanner::scan_directory`,
one recursive step per yielded item. -/
def scanEntries (fs : Fs) : List DirItem → DirectoryScanner →
    List DiscoveredTool × DirectoryScanner
  | [], s => ([], s)
  | item :: rest, s =>
    match item with
    | .error e => scanEntries fs rest ⟨s.errors ++ [ScanError.ioError e]⟩
    | .ok path =>
      if fs.isDir path then scanEntries fs rest s
      else
        match check_executable fs s path with
        | (none, s1) => scanEntries fs rest s1
        | (some tool, s1) =>
          let r := scanEntries fs rest s1
          (tool :: r.1, r.2)

/-- `DirectoryScanner::scan_directory`: fail fatally when the directory cannot
be listed, otherwise run the entry loop. -/
def scan_directory (fs : Fs) (s : DirectoryScanner) :
    Except ScanError (List DiscoveredTool) × DirectoryScanner :=
  match fs.readDir with
  | .error e => (.error (ScanError.ioError e), s)
  | .ok entries =>
    let r := scanEntries fs entries s
    (.ok r.1, r.2)

/-- `DirectoryScanner::take_errors` (`std::mem::take` on the log). -/
def take_errors (s : DirectoryScanner) : List ScanError × DirectoryScanner :=
  (s.errors, ⟨[]⟩)

end DirectoryScanner

/-!
## Metadata model

`ToolDefinition` is deserialized from YAML by `serde_yaml_ng` together with the
`#[derive(Deserialize)]` on the structs in the source.  The embedding works at
the level of structured YAML documents: a document is a `Yaml` value, and an
input text is represented by the outcome of the external `serde_yaml_ng`
text-level parser — `Except.error` for structurally invalid YAML text,
`Except.ok v` for text denoting the document `v`.  `serde_json::Value` schema
payloads are kept as opaque `Yaml` values (the source treats them as opaque
too).  `HashMap<String, Value>` annotations are represented as association
lists with iteration order abstracted; duplicate and non-string mapping keys
(rejected by the library before the derive runs) are outside the model.
-/

/-- A structured YAML document (`serde_yaml_ng::Value`); floats are not
needed by any claim and are omitted. -/
inductive Yaml where
  | null : Yaml
  | bool (b : Bool) : Yaml
  | num (n : Int) : Yaml
  | str (s : String) : Yaml
  | seq (items : List Yaml) : Yaml
  | map (entries : List (Yaml × Yaml)) : Yaml

/-- A descriptive parse error (`serde_yaml_ng::Error`). -/
inductive ParseErr where
  | badDocument (msg : String)
  | missingField (field : String)
  | invalidType (field : String)

/-- `struct ToolInput` from the source. -/
structure ToolInput where
  template : String
  schema : Yaml

/-- `struct ToolOutput` from the source. -/
structure ToolOutput where
  template : String
  schema : Yaml

/-- `struct ToolDefinition` from the source. -/
structure ToolDefinition where
  name : String
  title : Option String
  description : String
  input : ToolInput
  output : ToolOutput
  annotations : Option (List (String × Yaml))

/-- `struct McpTool` from the source (the pure protocol shape). -/
structure McpTool where
  name : String
  title : Option String
  description : String
  input_schema : Yaml
  output_schema : Option Yaml
  annotations : Option (List (String × Yaml))

/-- Look up the value at a string key in a YAML mapping (first occurrence). -/
def lookupKey : List (Yaml × Yaml) → String → Option Yaml
  | [], _ => none
  | (k, v) :: rest, field =>
    match k with
    | .str s => if s = field then some v else lookupKey rest field
    | _ => lookupKey rest field

/-- Deserialize a required `String` struct field (serde: present and a YAML
string, anything else is an invalid-type error, absence a missing-field
error). -/
def requireString (es : List (Yaml × Yaml)) (field : String) :
    Except ParseErr String :=
  match lookupKey es field with
  | none => .error (.missingField field)
  | some (.str s) => .ok s
  | some _ => .error (.invalidType field)

/-- Deserialize a required opaque-value struct field (serde on
`serde_json::Value`: any present value is accepted, absence is a
missing-field error). -/
def requireValue (es : List (Yaml × Yaml)) (field : String) :
    Except ParseErr Yaml :=
  match lookupKey es field with
  | none => .error (.missingField field)
  | some v => .ok v

/-- Deserialize an `Option<String>` struct field (serde: absent or `null`
gives `None`, a string gives `Some`, anything else is an error). -/
def optionalString (es : List (Yaml × Yaml)) (field : String) :
    Except ParseErr (Option String) :=
  match lookupKey es field with
  | none => .ok none
  | some .null => .ok none
  | some (.str s) => .ok (some s)
  | some _ => .error (.invalidType field)

/-- Deserialize the entries of an annotations mapping: every key must be a
string. -/
def decodeAnnotationEntries : List (Yaml × Yaml) →
    Except ParseErr (List (String × Yaml))
  | [] => .ok []
  | (k, v) :: rest =>
    match k with
    | .str s =>
      match decodeAnnotationEntries rest with
      | .error e => .error e
      | .ok tail => .ok ((s, v) :: tail)
    | _ => .error (.invalidType "annotations")

/-- Deserialize the `Option<HashMap<String, Value>>` annotations field. -/
def decodeAnnotations (es : List (Yaml × Yaml)) :
    Except ParseErr (Option (List (String × Yaml))) :=
  match lookupKey es "annotations" with
  | none => .ok none
  | some .null => .ok none
  | some (.map aes) =>
    match decodeAnnotationEntries aes with
    | .error e => .error e
    | .ok l => .ok (some l)
  | some _ => .error (.invalidType "annotations")

/-- The derived `Deserialize` of `ToolInput`: a mapping with a required
`template` string and a required opaque `schema`. -/
def decodeToolInput (v : Yaml) : Except ParseErr ToolInput :=
  match v with
  | .map es =>
    match requireString es "template" with
    | .error e => .error e
    | .ok template =>
      match requireValue es "schema" with
      | .error e => .error e
      | .ok schema => .ok ⟨template, schema⟩
  | _ => .error (.invalidType "input")

/-- The derived `Deserialize` of `ToolOutput`. -/
def decodeToolOutput (v : Yaml) : Except ParseErr ToolOutput :=
  match v with
  | .map es =>
    match requireString es "template" with
    | .error e => .error e
    | .ok template =>
      match requireValue es "schema" with
      | .error e => .error e
      | .ok schema => .ok ⟨template, schema⟩
  | _ => .error (.invalidType "output")

/-- The derived `Deserialize` of `ToolDefinition` on a structured document:
the required fields in struct declaration order, each absence or shape
mismatch an error, never a default. -/
def fromYamlValue (v : Yaml) : Except ParseErr ToolDefinition :=
  match v with
  | .map es =>
    match requireString es "name" with
    | .error e => .error e
    | .ok name =>
      match optionalString es "title" with
      | .error e => .error e
      | .ok title =>
        match requireString es "description" with
        | .error e => .error e
        | .ok description =>
          match requireValue es "input" with
          | .error e => .error e
          | .ok inputVal =>
            match decodeToolInput inputVal with
            | .error e => .error e
            | .ok input =>
              match requireValue es "output" with
              | .error e => .error e
              | .ok outputVal =>
                match decodeToolOutput outputVal with
                | .error e => .error e
                | .ok output =>
                  match decodeAnnotations es with
                  | .error e => .error e
                  | .ok annotations =>
                    .ok ⟨name, title, description, input, output, annotations⟩
  | _ => .error (.invalidType "ToolDefinition")

/-- `ToolDefinition::from_yaml`: the external text-level YAML parser's outcome
(`doc`) fed into the derived deserializer.  A structurally invalid input text
is represented by `doc = .error e`. -/
def from_yaml (doc : Except ParseErr Yaml) : Except ParseErr ToolDefinition :=
  match doc with
  | .error e => .error e
  | .ok v => fromYamlValue v

/-- The derived `Serialize` of an `Option<String>` field value. -/
def yamlOfOptString : Option String → Yaml
  | none => .null
  | some s => .str s

/-- The derived `Serialize` of the annotations field value. -/
def yamlOfAnnotations : Option (List (String × Yaml)) → Yaml
  | none => .null
  | some l => .map (l.map (fun kv => (.str kv.1, kv.2)))

/-- The derived `Serialize` of `ToolDefinition` (fields in declaration
order, `Option` fields as `null` when absent). -/
def toYamlValue (d : ToolDefinition) : Yaml :=
  .map [(.str "name", .str d.name),
        (.str "title", yamlOfOptString d.title),
        (.str "description", .str d.description),
        (.str "input", .map [(.str "template", .str d.input.template),
                             (.str "schema", d.input.schema)]),
        (.str "output", .map [(.str "template", .str d.output.template),
                              (.str "schema", d.output.schema)]),
        (.str "annotations", yamlOfAnnotations d.annotations)]

/-- `ToolDefinition::to_mcp_tool`: the pure projection to the protocol
shape. -/
def to_mcp_tool (d : ToolDefinition) : McpTool :=
  { name := d.name
    title := d.title
    description := d.description
    input_schema := d.input.schema
    output_schema := some d.output.schema
    annotations := d.annotations }

/-- The derived `Serialize` of `McpTool` (with the serde renames
`input_schema`/`output_schema`). -/
def mcpToYamlValue (t : McpTool) : Yaml :=
  .map [(.str "name", .str t.name),
        (.str "title", yamlOfOptString t.title),
        (.str "description", .str t.description),
        (.str "input_schema", t.input_schema),
        (.str "output_schema", match t.output_schema with
          | none => .null
          | some v => v),
        (.str "annotations", yamlOfAnnotations t.annotations)]

/-- The string keys of a top-level YAML mapping. -/
def topLevelKeys : Yaml → List String
  | .map es => es.filterMap (fun kv =>
      match kv.1 with
      | .str s => some s
      | _ => none)
  | _ => []

/-- `Except.isOk` as a plain function of this development. -/
def exceptIsOk {ε α : Type} : Except ε α → Bool
  | .ok _ => true
  | .error _ => false

/-!
## Specification-side characterizations of the scanner

Closed forms for the scanner's behavior, used to state the claims; each is
proved equal to the source embedding. -/

namespace DirectoryScanner

/-- The sidecar path the scanner computes for a candidate:
`executable_path.with_extension("yaml")`. -/
def sidecarPath (p : FileName) : FileName :=
  withExtension p "yaml"

/-- The runnability classification: the execute bit first, then the
extension fallback. -/
def runnable (fs : Fs) (p : FileName) : Bool :=
  if fs.executable p then true else check_executable_by_extension fs p

/-- The metadata source `find_metadata_source` resolves to (its pure value
component). -/
def metaSourceOf (fs : Fs) (p : FileName) : MetadataSource :=
  if fs.pathExists (sidecarPath p) then
    if fs.metadataOk (sidecarPath p) then MetadataSource.Sidecar (sidecarPath p)
    else MetadataSource.Embedded p
  else MetadataSource.Embedded p

/-- The errors `find_metadata_source` appends to the log. -/
def metaErrors (fs : Fs) (p : FileName) : List ScanError :=
  if fs.pathExists (sidecarPath p) && !fs.metadataOk (sidecarPath p) then
    [ScanError.permissionDenied (sidecarPath p)]
  else []

/-- The tool (if any) that one successfully read, classified directory item
contributes to the scan result. -/
def toolOf (fs : Fs) : DirItem → Option DiscoveredTool
  | .error _ => none
  | .ok p =>
    if fs.isDir p then none
    else if runnable fs p then some ⟨p, metaSourceOf fs p⟩
    else none

/-- The errors one directory item appends to the log. -/
def entryErrors (fs : Fs) : DirItem → List ScanError
  | .error e => [ScanError.ioError e]
  | .ok p =>
    if fs.isDir p then []
    else if runnable fs p then metaErrors fs p
    else []

end DirectoryScanner

/-!
## Concrete evaluation inputs

Small closed scanner oracles and documents on which the claim theorems are
evaluated. -/

/-- A filesystem whose sidecar paths all exist and are statable. -/
def fsSidecarOk : Fs :=
  ⟨.ok [], fun _ => false, fun _ => true, fun _ => true, fun _ => true⟩

/-- A filesystem whose sidecar paths all exist but none is statable. -/
def fsSidecarDenied : Fs :=
  ⟨.ok [], fun _ => false, fun _ => true, fun _ => true, fun _ => false⟩

/-- A filesystem with no sidecar paths at all. -/
def fsNoSidecar : Fs :=
  ⟨.ok [], fun _ => false, fun _ => true, fun _ => false, fun _ => false⟩

/-- A filesystem that cannot list the scanned directory. -/
def fsUnlistable : Fs :=
  ⟨.error ⟨"not found"⟩, fun _ => false, fun _ => false, fun _ => false,
   fun _ => false⟩

/-- The directory listing of `sampleFs`: an executable with an unreadable
sidecar, an unreadable entry, a subdirectory, a plain text file, a
Windows-style executable, and a shell script. -/
def sampleItems : List DirItem :=
  [.ok "tool", .error ⟨"boom"⟩, .ok "subdir", .ok "notes.txt",
   .ok "win.EXE", .ok "script.sh"]

/-- A filesystem realizing `sampleItems`: only `tool` has the execute bit,
only `tool.yaml` exists as a sidecar, and no sidecar is statable. -/
def sampleFs : Fs :=
  ⟨.ok sampleItems, fun p => p == "subdir", fun p => p == "tool",
   fun p => p == "tool.yaml", fun _ => false⟩

/-- A sample rich tool definition. -/
def sampleDef : ToolDefinition :=
  ⟨"create_ticket", some "Create Ticket", "Creates a ticket",
   ⟨"--title T B", .map [(.str "type", .str "object")]⟩,
   ⟨"Created: U", .map [(.str "type", .str "string")]⟩,
   none⟩

/-!
## Helper lemmas -/

theorem splitAtLastDot_append (cs st ex : List Char)
    (h : splitAtLastDot cs = some (st, ex)) :
    cs = st ++ '.' :: ex := by
  induction cs generalizing st ex with
  | nil => simp [splitAtLastDot] at h
  | cons c rest ih =>
    unfold splitAtLastDot at h
    cases hr : splitAtLastDot rest with
    | some pr =>
      rw [hr] at h
      cases pr with
      | mk st0 ex0 =>
        simp at h
        obtain ⟨h1, h2⟩ := h
        subst h1
        subst h2
        simp [ih st0 ex0 hr]
    | none =>
      rw [hr] at h
      by_cases hc : c = '.'
      · simp [hc] at h
        obtain ⟨h1, h2⟩ := h
        subst h2
        simp [hc, ← h1]
      · simp [hc] at h

/-- A file name whose extension already is `yaml` is its own sidecar path. -/
theorem withExtension_yaml_self (p : FileName)
    (h : extension p = some "yaml") : withExtension p "yaml" = p := by
  unfold extension at h
  cases hs : splitAtLastDot p.data with
  | none => rw [hs] at h; simp at h
  | some pr =>
    cases pr with
    | mk st ex =>
      rw [hs] at h
      by_cases hst : st = []
      · simp [hst] at h
      · simp [hst] at h
        have hex : ex = "yaml".data := by
          have := congrArg String.data h
          simpa using this
        have hd : p.data = st ++ '.' :: ex := splitAtLastDot_append _ _ _ hs
        unfold withExtension fileStem
        rw [hs]
        simp [hst]
        apply String.ext
        simp [String.data, hd, hex]

theorem exceptIsOk_false {ε α : Type} (x : Except ε α)
    (hx : ∀ a, x ≠ Except.ok a) : exceptIsOk x = false := by
  cases x with
  | ok a => exact absurd rfl (hx a)
  | error e => rfl

theorem requireValue_ok (es : List (Yaml × Yaml)) (field : String) (v : Yaml)
    (h : requireValue es field = .ok v) : lookupKey es field = some v := by
  unfold requireValue at h
  cases hl : lookupKey es field with
  | none => rw [hl] at h; exact Except.noConfusion h
  | some w =>
    rw [hl] at h
    cases h
    rfl

theorem requireString_ok (es : List (Yaml × Yaml)) (field : String)
    (s0 : String) (h : requireString es field = .ok s0) :
    lookupKey es field = some (.str s0) := by
  unfold requireString at h
  cases hl : lookupKey es field with
  | none => rw [hl] at h; exact Except.noConfusion h
  | some w =>
    rw [hl] at h
    cases w <;> first
      | exact Except.noConfusion h
      | (cases h; rfl)

theorem decodeToolInput_ok_shape (ies : List (Yaml × Yaml)) (ti : ToolInput)
    (h : decodeToolInput (.map ies) = .ok ti) :
    requireString ies "template" = .ok ti.template ∧
    requireValue ies "schema" = .ok ti.schema := by
  simp only [decodeToolInput] at h
  repeat' split at h
  all_goals try exact Except.noConfusion h
  cases h
  exact ⟨by assumption, by assumption⟩

theorem decodeToolInput_ok_map (v : Yaml) (ti : ToolInput)
    (h : decodeToolInput v = .ok ti) : ∃ ies, v = Yaml.map ies := by
  cases v <;> first
    | exact Except.noConfusion h
    | exact ⟨_, rfl⟩

theorem decodeToolOutput_ok_shape (oes : List (Yaml × Yaml))
    (t : ToolOutput) (h : decodeToolOutput (.map oes) = .ok t) :
    requireString oes "template" = .ok t.template ∧
    requireValue oes "schema" = .ok t.schema := by
  simp only [decodeToolOutput] at h
  repeat' split at h
  all_goals try exact Except.noConfusion h
  cases h
  exact ⟨by assumption, by assumption⟩

theorem fromYamlValue_ok_shape (es : List (Yaml × Yaml))
    (d : ToolDefinition) (h : fromYamlValue (.map es) = .ok d) :
    requireString es "name" = .ok d.name ∧
    optionalString es "title" = .ok d.title ∧
    requireString es "description" = .ok d.description ∧
    (∃ iv, requireValue es "input" = .ok iv ∧
       decodeToolInput iv = .ok d.input) ∧
    (∃ ov, requireValue es "output" = .ok ov ∧
       decodeToolOutput ov = .ok d.output) ∧
    decodeAnnotations es = .ok d.annotations := by
  simp only [fromYamlValue] at h
  repeat' split at h
  all_goals try exact Except.noConfusion h
  cases h
  exact ⟨by assumption, by assumption, by assumption,
    ⟨_, by assumption, by assumption⟩, ⟨_, by assumption, by assumption⟩,
    by assumption⟩

theorem decodeAnnotationEntries_map (l : List (String × Yaml)) :
    decodeAnnotationEntries
      (l.map (fun kv => (Yaml.str kv.1, kv.2))) = .ok l := by
  induction l with
  | nil => rfl
  | cons kv rest ih =>
    cases kv with
    | mk k v => simp [decodeAnnotationEntries, ih]

namespace DirectoryScanner

theorem find_metadata_source_eq (fs : Fs) (s : DirectoryScanner)
    (p : FileName) :
    find_metadata_source fs s p =
      (metaSourceOf fs p, ⟨s.errors ++ metaErrors fs p⟩) := by
  unfold find_metadata_source metaSourceOf metaErrors sidecarPath
  by_cases h1 : fs.pathExists (withExtension p "yaml") <;>
    by_cases h2 : fs.metadataOk (withExtension p "yaml") <;>
    simp [h1, h2]

theorem check_executable_eq (fs : Fs) (s : DirectoryScanner) (p : FileName) :
    check_executable fs s p =
      (if runnable fs p then
          some ⟨p, metaSourceOf fs p⟩
        else none,
       ⟨s.errors ++ if runnable fs p then metaErrors fs p else []⟩) := by
  unfold check_executable runnable
  by_cases hb : fs.executable p
  · simp [hb, find_metadata_source_eq]
  · by_cases he : check_executable_by_extension fs p <;>
      simp [hb, he, find_metadata_source_eq]

theorem scanEntries_eq (fs : Fs) (items : List DirItem) :
    ∀ s : DirectoryScanner,
      scanEntries fs items s =
        (items.filterMap (toolOf fs),
         ⟨s.errors ++ items.flatMap (entryErrors fs)⟩) := by
  induction items with
  | nil => intro s; simp [scanEntries]
  | cons item rest ih =>
    intro s
    cases item with
    | error e =>
      simp [scanEntries, toolOf, entryErrors, ih, List.append_assoc]
    | ok p =>
      by_cases hd : fs.isDir p
      · simp [scanEntries, toolOf, entryErrors, hd, ih]
      · by_cases hr : runnable fs p
        · simp [scanEntries, toolOf, entryErrors, hd, hr, ih,
            check_executable_eq, List.append_assoc]
        · simp [scanEntries, toolOf, entryErrors, hd, hr, ih,
            check_executable_eq]

theorem scan_directory_eq (fs : Fs) (s : DirectoryScanner)
    (items : List DirItem) (h : fs.readDir = .ok items) :
    scan_directory fs s =
      (.ok (items.filterMap (toolOf fs)),
       ⟨s.errors ++ items.flatMap (entryErrors fs)⟩) := by
  unfold scan_directory
  rw [h]
  simp [scanEntries_eq]

/-!
## Claim theorems -/

/-- C1: For every accepted executable candidate, metadata resolution is total
and deterministic (it is a function of the embedding): when the `.yaml`
sibling exists and its metadata can be read the result is `Sidecar` of that
sibling; when it exists but its metadata cannot be read a `PermissionDenied`
record naming the sibling is appended to the log and the result is
`Embedded(executable_path)`; when it does not exist the result is
`Embedded(executable_path)` and the log is untouched; and every `Embedded`
result carries exactly the candidate's own path. -/
theorem find_metadata_source_total_spec (fs : Fs) (s : DirectoryScanner)
    (p : FileName) :
    (fs.pathExists (sidecarPath p) = true →
      fs.metadataOk (sidecarPath p) = true →
        find_metadata_source fs s p =
          (MetadataSource.Sidecar (sidecarPath p), s)) ∧
    (fs.pathExists (sidecarPath p) = true →
      fs.metadataOk (sidecarPath p) = false →
        find_metadata_source fs s p =
          (MetadataSource.Embedded p,
           ⟨s.errors ++ [ScanError.permissionDenied (sidecarPath p)]⟩)) ∧
    (fs.pathExists (sidecarPath p) = false →
        find_metadata_source fs s p = (MetadataSource.Embedded p, s)) ∧
    (∀ q, (find_metadata_source fs s p).1 = MetadataSource.Embedded q →
        q = p) := by
  refine ⟨fun h1 h2 => ?_, fun h1 h2 => ?_, fun h1 => ?_, fun q hq => ?_⟩
  · rw [find_metadata_source_eq]
    simp [metaSourceOf, metaErrors, h1, h2]
  · rw [find_metadata_source_eq]
    simp [metaSourceOf, metaErrors, h1, h2]
  · rw [find_metadata_source_eq]
    simp [metaSourceOf, metaErrors, h1]
  · rw [find_metadata_source_eq] at hq
    unfold metaSourceOf at hq
    by_cases h1 : fs.pathExists (sidecarPath p) <;>
      by_cases h2 : fs.metadataOk (sidecarPath p) <;>
      simp [h1, h2] at hq <;> simp [hq]

/-- Witness for C1: the three resolution outcomes evaluated on concrete
filesystems for the candidate `tool` (whose sibling path is `tool.yaml`). -/
theorem find_metadata_source_total_spec_witness :
    find_metadata_source fsSidecarOk DirectoryScanner.new "tool" =
      (MetadataSource.Sidecar "tool.yaml", DirectoryScanner.new) ∧
    find_metadata_source fsSidecarDenied DirectoryScanner.new "tool" =
      (MetadataSource.Embedded "tool",
       ⟨[ScanError.permissionDenied "tool.yaml"]⟩) ∧
    find_metadata_source fsNoSidecar DirectoryScanner.new "tool" =
      (MetadataSource.Embedded "tool", DirectoryScanner.new) := by
  have hs : sidecarPath "tool" = "tool.yaml" := by decide
  refine ⟨?_, ?_, ?_⟩
  · have h := (find_metadata_source_total_spec fsSidecarOk
      DirectoryScanner.new "tool").1 (by decide) (by decide)
    rw [hs] at h
    exact h
  · have h := (find_metadata_source_total_spec fsSidecarDenied
      DirectoryScanner.new "tool").2.1 (by decide) (by decide)
    rw [hs] at h
    exact h
  · exact (find_metadata_source_total_spec fsNoSidecar
      DirectoryScanner.new "tool").2.2.1 (by decide)

/-- C2: on a listable directory the scan result is exactly the runnable
non-directory entries, in listing order: each successfully read item
contributes a tool exactly when it is not a directory and passes the
classification (execute bit first, extension fallback only when the bit check
is negative; the fallback accepts exactly the lowercased extensions `exe`,
`bat`, `cmd`, `ps1`, `sh`, and extensionless files fall back to the bit
check); excluded items (directories regardless of their bits, and files
failing both checks) contribute nothing and log nothing. -/
theorem scan_directory_classification (fs : Fs) (s : DirectoryScanner)
    (items : List DirItem) (h : fs.readDir = .ok items) :
    (scan_directory fs s).1 = .ok (items.filterMap (toolOf fs)) ∧
    (∀ p : FileName, toolOf fs (.ok p) =
      (if fs.isDir p = false ∧ runnable fs p = true then
         some ⟨p, metaSourceOf fs p⟩
       else none)) ∧
    (∀ p, fs.executable p = true → runnable fs p = true) ∧
    (∀ p, fs.executable p = false →
       runnable fs p = check_executable_by_extension fs p) ∧
    (∀ p e0, extension p = some e0 →
       check_executable_by_extension fs p =
         ["exe", "bat", "cmd", "ps1", "sh"].contains (lowerStr e0)) ∧
    (∀ p, extension p = none →
       check_executable_by_extension fs p = fs.executable p) ∧
    (∀ p, fs.isDir p = true ∨ runnable fs p = false →
       toolOf fs (.ok p) = none ∧ entryErrors fs (.ok p) = []) := by
  refine ⟨?_, ?_, ?_, ?_, ?_, ?_, ?_⟩
  · rw [scan_directory_eq fs s items h]
  · intro p
    unfold toolOf
    by_cases hd : fs.isDir p <;> by_cases hr : runnable fs p <;>
      simp [hd, hr]
  · intro p hp
    unfold runnable
    simp [hp]
  · intro p hp
    unfold runnable
    simp [hp]
  · intro p e0 he
    unfold check_executable_by_extension
    rw [he]
  · intro p he
    unfold check_executable_by_extension
    rw [he]
  · intro p hp
    unfold toolOf entryErrors
    rcases hp with hd | hr
    · simp [hd]
    · by_cases hd : fs.isDir p <;> simp [hd, hr]

/-- Witness for C2: the sample directory evaluates to exactly its three
runnable files (`tool` by its execute bit, `win.EXE` and `script.sh` by the
extension fallback); the unreadable entry, the subdirectory and `notes.txt`
are absent. -/
theorem scan_directory_classification_witness :
    (scan_directory sampleFs DirectoryScanner.new).1 =
      .ok [⟨"tool", MetadataSource.Embedded "tool"⟩,
           ⟨"win.EXE", MetadataSource.Embedded "win.EXE"⟩,
           ⟨"script.sh", MetadataSource.Embedded "script.sh"⟩] := by
  have h := (scan_directory_classification sampleFs DirectoryScanner.new
    sampleItems rfl).1
  rw [h]
  rfl

/-- C4: non-fatal errors never fail or shrink the scan: on a listable
directory the call returns `Ok`, each unreadable entry contributes no tool
and appends exactly one IO error record, and the log after the call is the
log before the call followed by the records of this call (never reset or
replaced — the pre-state `s` is arbitrary, including the state left by
earlier calls). -/
theorem scan_directory_nonfatal_append (fs : Fs) (s : DirectoryScanner)
    (items : List DirItem) (h : fs.readDir = .ok items) :
    exceptIsOk (scan_directory fs s).1 = true ∧
    (scan_directory fs s).2.errors =
      s.errors ++ items.flatMap (entryErrors fs) ∧
    (∀ e, entryErrors fs (.error e) = [ScanError.ioError e]) ∧
    (∀ e, toolOf fs (.error e) = none) := by
  rw [scan_directory_eq fs s items h]
  exact ⟨rfl, rfl, fun e => rfl, fun e => rfl⟩

/-- Witness for C4: on the sample directory the call succeeds and the drained
log is exactly the unreadable sidecar's record followed by the unreadable
entry's record, appended to the (empty) prior log. -/
theorem scan_directory_nonfatal_append_witness :
    exceptIsOk (scan_directory sampleFs DirectoryScanner.new).1 = true ∧
    (scan_directory sampleFs DirectoryScanner.new).2.errors =
      [ScanError.permissionDenied "tool.yaml", ScanError.ioError ⟨"boom"⟩] := by
  have h := scan_directory_nonfatal_append sampleFs DirectoryScanner.new
    sampleItems rfl
  refine ⟨h.1, ?_⟩
  rw [h.2.1]
  decide

/-- C3: when the directory itself cannot be listed, `scan_directory` returns
the IO error, no partial tool list, and leaves the scanner untouched. -/
theorem scan_directory_fatal_error (fs : Fs) (s : DirectoryScanner)
    (e : IoErr) (h : fs.readDir = .error e) :
    scan_directory fs s = (.error (ScanError.ioError e), s) ∧
    ∀ tools, (scan_directory fs s).1 ≠ .ok tools := by
  constructor
  · unfold scan_directory
    rw [h]
  · intro tools
    unfold scan_directory
    rw [h]
    simp

/-- Witness for C3: scanning the unlistable filesystem evaluates to the fatal
IO error. -/
theorem scan_directory_fatal_error_witness :
    scan_directory fsUnlistable DirectoryScanner.new =
      (.error (ScanError.ioError ⟨"not found"⟩), DirectoryScanner.new) :=
  (scan_directory_fatal_error fsUnlistable DirectoryScanner.new
    ⟨"not found"⟩ rfl).1

/-- C5: `take_errors` returns exactly the accumulated log and leaves the log
empty afterward; the peek accessor `errors` is the pure field projection the
drain result agrees with, and a freshly constructed scanner has an empty
log. -/
theorem take_errors_drains_log (s : DirectoryScanner) :
    take_errors s = (s.errors, ⟨[]⟩) ∧
    (take_errors s).1 = s.errors ∧
    (take_errors s).2.errors = [] ∧
    DirectoryScanner.new.errors = [] :=
  ⟨rfl, rfl, rfl, rfl⟩

/-- C10: a candidate already named with the `.yaml` extension is its own
sidecar: the computed sibling path equals the candidate's path, and (the
candidate existing and being statable, as a just-listed file is) resolution
reports `Sidecar` of the candidate itself, not `Embedded`. -/
theorem yaml_executable_self_sidecar (fs : Fs) (s : DirectoryScanner)
    (p : FileName) (hext : extension p = some "yaml")
    (hbit : fs.executable p = true)
    (hex : fs.pathExists p = true) (hmeta : fs.metadataOk p = true) :
    sidecarPath p = p ∧
    find_metadata_source fs s p = (MetadataSource.Sidecar p, s) ∧
    check_executable fs s p =
      (some ⟨p, MetadataSource.Sidecar p⟩, s) := by
  have hsp : sidecarPath p = p := withExtension_yaml_self p hext
  have hfind : find_metadata_source fs s p = (MetadataSource.Sidecar p, s) := by
    rw [find_metadata_source_eq]
    simp [metaSourceOf, metaErrors, hsp, hex, hmeta]
  refine ⟨hsp, hfind, ?_⟩
  unfold check_executable
  simp [hbit, hfind]

/-- Witness for C10: the executable file `tool.yaml` evaluates to a tool that
is its own sidecar. -/
theorem yaml_executable_self_sidecar_witness :
    sidecarPath "tool.yaml" = "tool.yaml" ∧
    check_executable fsSidecarOk DirectoryScanner.new "tool.yaml" =
      (some ⟨"tool.yaml", MetadataSource.Sidecar "tool.yaml"⟩,
       DirectoryScanner.new) := by
  have h := yaml_executable_self_sidecar fsSidecarOk DirectoryScanner.new
    "tool.yaml" (by decide) (by decide) (by decide) (by decide)
  exact ⟨h.1, h.2.2⟩

end DirectoryScanner

/-- C9: the projection never omits the output schema: `to_mcp_tool d` always
carries `some d.output.schema`, never `none`. -/
theorem to_mcp_tool_output_schema_some (d : ToolDefinition) :
    (to_mcp_tool d).output_schema = some d.output.schema ∧
    (to_mcp_tool d).output_schema ≠ none :=
  ⟨rfl, by simp [to_mcp_tool]⟩

/-- Witness for C9: the projection of the sample definition evaluates to an
`output_schema` that is present. -/
theorem to_mcp_tool_output_schema_some_witness :
    (to_mcp_tool sampleDef).output_schema =
      some (Yaml.map [(.str "type", .str "string")]) ∧
    (to_mcp_tool sampleDef).output_schema ≠ none :=
  ⟨(to_mcp_tool_output_schema_some sampleDef).1,
   (to_mcp_tool_output_schema_some sampleDef).2⟩

/-- C6: the projection to the protocol shape is total, pure and deterministic
(it is a function of the embedding): it copies `name`, `title`,
`description` and `annotations` unchanged, sets `input_schema` to the
definition's `input.schema`, does not depend on the input or output template
strings (they are dropped), and the serialized protocol shape carries no
`template` key. -/
theorem to_mcp_tool_pure_projection (d : ToolDefinition) (t1 t2 : String) :
    to_mcp_tool d = ⟨d.name, d.title, d.description, d.input.schema,
      some d.output.schema, d.annotations⟩ ∧
    to_mcp_tool ⟨d.name, d.title, d.description, ⟨t1, d.input.schema⟩,
      ⟨t2, d.output.schema⟩, d.annotations⟩ = to_mcp_tool d ∧
    topLevelKeys (mcpToYamlValue (to_mcp_tool d)) =
      ["name", "title", "description", "input_schema", "output_schema",
       "annotations"] ∧
    "template" ∉ topLevelKeys (mcpToYamlValue (to_mcp_tool d)) := by
  refine ⟨rfl, rfl, rfl, ?_⟩
  intro hmem
  rw [show topLevelKeys (mcpToYamlValue (to_mcp_tool d)) =
    ["name", "title", "description", "input_schema", "output_schema",
     "annotations"] from rfl] at hmem
  simp at hmem

/-- Witness for C6: the projection of the sample definition evaluated, and
the absence of a `template` key in its serialized protocol form. -/
theorem to_mcp_tool_pure_projection_witness :
    to_mcp_tool sampleDef =
      ⟨"create_ticket", some "Create Ticket", "Creates a ticket",
       Yaml.map [(.str "type", .str "object")],
       some (Yaml.map [(.str "type", .str "string")]), none⟩ ∧
    "template" ∉ topLevelKeys (mcpToYamlValue (to_mcp_tool sampleDef)) := by
  have h := to_mcp_tool_pure_projection sampleDef "A" "B"
  exact ⟨h.1, h.2.2.2⟩

/-- C7: the parser returns an error value — never a panic, never a default —
whenever the input text is structurally invalid YAML (represented by the
external text stage's error outcome), whenever the document is not a
mapping, whenever a required field (`name`, `description`, `input`,
`output`, or the nested `template`/`schema` of `input`/`output`) is
missing, or whenever `input` has a non-mapping shape; in particular a
document without an `output` key always yields an error. -/
theorem from_yaml_rejects_malformed :
    (∀ e, from_yaml (.error e) = .error e) ∧
    (∀ v : Yaml, (∀ es, v ≠ .map es) →
       exceptIsOk (fromYamlValue v) = false) ∧
    (∀ es, lookupKey es "name" = none →
       exceptIsOk (fromYamlValue (.map es)) = false) ∧
    (∀ es, lookupKey es "description" = none →
       exceptIsOk (fromYamlValue (.map es)) = false) ∧
    (∀ es, lookupKey es "input" = none →
       exceptIsOk (fromYamlValue (.map es)) = false) ∧
    (∀ es, lookupKey es "output" = none →
       exceptIsOk (fromYamlValue (.map es)) = false) ∧
    (∀ es w, lookupKey es "input" = some w → (∀ ies, w ≠ .map ies) →
       exceptIsOk (fromYamlValue (.map es)) = false) ∧
    (∀ es ies, lookupKey es "input" = some (.map ies) →
       lookupKey ies "template" = none →
       exceptIsOk (fromYamlValue (.map es)) = false) ∧
    (∀ es ies, lookupKey es "input" = some (.map ies) →
       lookupKey ies "schema" = none →
       exceptIsOk (fromYamlValue (.map es)) = false) ∧
    (∀ es oes, lookupKey es "output" = some (.map oes) →
       lookupKey oes "template" = none →
       exceptIsOk (fromYamlValue (.map es)) = false) ∧
    (∀ es oes, lookupKey es "output" = some (.map oes) →
       lookupKey oes "schema" = none →
       exceptIsOk (fromYamlValue (.map es)) = false) := by
  refine ⟨fun e => rfl, ?_, ?_, ?_, ?_, ?_, ?_, ?_, ?_, ?_, ?_⟩
  · intro v hv
    cases v <;> first
      | rfl
      | exact absurd rfl (hv _)
  · intro es h
    apply exceptIsOk_false
    intro d hd
    have hs := (fromYamlValue_ok_shape es d hd).1
    rw [requireString_ok es "name" d.name hs] at h
    exact Option.noConfusion h
  · intro es h
    apply exceptIsOk_false
    intro d hd
    have hs := (fromYamlValue_ok_shape es d hd).2.2.1
    rw [requireString_ok es "description" d.description hs] at h
    exact Option.noConfusion h
  · intro es h
    apply exceptIsOk_false
    intro d hd
    obtain ⟨iv, hiv, _⟩ := (fromYamlValue_ok_shape es d hd).2.2.2.1
    rw [requireValue_ok es "input" iv hiv] at h
    exact Option.noConfusion h
  · intro es h
    apply exceptIsOk_false
    intro d hd
    obtain ⟨ov, hov, _⟩ := (fromYamlValue_ok_shape es d hd).2.2.2.2.1
    rw [requireValue_ok es "output" ov hov] at h
    exact Option.noConfusion h
  · intro es w hw hnm
    apply exceptIsOk_false
    intro d hd
    obtain ⟨iv, hiv, hdec⟩ := (fromYamlValue_ok_shape es d hd).2.2.2.1
    have h1 := requireValue_ok es "input" iv hiv
    rw [hw] at h1
    injection h1 with h2
    subst h2
    obtain ⟨ies, rfl⟩ := decodeToolInput_ok_map w d.input hdec
    exact absurd rfl (hnm ies)
  · intro es ies hin h
    apply exceptIsOk_false
    intro d hd
    obtain ⟨iv, hiv, hdec⟩ := (fromYamlValue_ok_shape es d hd).2.2.2.1
    have h1 := requireValue_ok es "input" iv hiv
    rw [hin] at h1
    injection h1 with h2
    subst h2
    have hsh := (decodeToolInput_ok_shape ies d.input hdec).1
    rw [requireString_ok ies "template" d.input.template hsh] at h
    exact Option.noConfusion h
  · intro es ies hin h
    apply exceptIsOk_false
    intro d hd
    obtain ⟨iv, hiv, hdec⟩ := (fromYamlValue_ok_shape es d hd).2.2.2.1
    have h1 := requireValue_ok es "input" iv hiv
    rw [hin] at h1
    injection h1 with h2
    subst h2
    have hsh := (decodeToolInput_ok_shape ies d.input hdec).2
    rw [requireValue_ok ies "schema" d.input.schema hsh] at h
    exact Option.noConfusion h
  · intro es oes hout h
    apply exceptIsOk_false
    intro d hd
    obtain ⟨ov, hov, hdec⟩ := (fromYamlValue_ok_shape es d hd).2.2.2.2.1
    have h1 := requireValue_ok es "output" ov hov
    rw [hout] at h1
    injection h1 with h2
    subst h2
    have hsh := (decodeToolOutput_ok_shape oes d.output hdec).1
    rw [requireString_ok oes "template" d.output.template hsh] at h
    exact Option.noConfusion h
  · intro es oes hout h
    apply exceptIsOk_false
    intro d hd
    obtain ⟨ov, hov, hdec⟩ := (fromYamlValue_ok_shape es d hd).2.2.2.2.1
    have h1 := requireValue_ok es "output" ov hov
    rw [hout] at h1
    injection h1 with h2
    subst h2
    have hsh := (decodeToolOutput_ok_shape oes d.output hdec).2
    rw [requireValue_ok oes "schema" d.output.schema hsh] at h
    exact Option.noConfusion h

/-- Witness for C7: an invalid text, a scalar document, and a concrete
document with every field but `output` all evaluate to errors. -/
theorem from_yaml_rejects_malformed_witness :
    from_yaml (.error (ParseErr.badDocument "bad")) =
      .error (ParseErr.badDocument "bad") ∧
    exceptIsOk (fromYamlValue (.str "scalar")) = false ∧
    exceptIsOk (fromYamlValue (.map
      [(.str "name", .str "t"), (.str "description", .str "d"),
       (.str "input", .map [(.str "template", .str "x"),
                            (.str "schema", .null)])])) = false := by
  refine ⟨from_yaml_rejects_malformed.1 _, ?_, ?_⟩
  · exact from_yaml_rejects_malformed.2.1 (.str "scalar")
      (fun es h => Yaml.noConfusion h)
  · exact from_yaml_rejects_malformed.2.2.2.2.2.1 _ rfl

/-- C8: round-trip — serializing any well-formed `ToolDefinition` (to a
structured YAML document, fields in declaration order) and re-parsing it
reproduces the value, field for field, with opaque schema payloads kept
intact. -/
theorem from_yaml_round_trip (d : ToolDefinition) :
    from_yaml (.ok (toYamlValue d)) = .ok d := by
  obtain ⟨name, title, description, ⟨it, isch⟩, ⟨ot, osch⟩, ann⟩ := d
  cases title <;> cases ann <;>
    simp [from_yaml, toYamlValue, fromYamlValue, requireString, requireValue,
      optionalString, decodeAnnotations, decodeToolInput, decodeToolOutput,
      lookupKey, yamlOfOptString, yamlOfAnnotations,
      decodeAnnotationEntries_map]

end McpServe
